import Mathlib

/-!
Verification of the generic simulated-annealing engine (src/src/lib.rs).

Modelling conventions for the shallow embedding:
* `f64` scores and temperatures are modelled by `ℚ`.  The float library
  functions `exp` and `ln` used by the engine are external collaborators and
  are modelled abstractly by a `FloatOps` record; the claim about the real
  mathematical decay formula is settled separately over `ℝ` with `Real.exp`
  and `Real.log` (`decayReal` below).
* The pseudorandom generators (`SmallRng`, `StdRng`) are external
  collaborators (the spec excludes their internal algorithm); they are
  modelled as abstract seedable deterministic streams (`RngOps`, `StdRngOps`).
* In-place mutation of the candidate state becomes explicit state passing.
* The unbounded `loop` of `do_annealing` becomes a fuel-indexed recursion
  returning `Option`; `none` means the fuel ran out.
* The `progress!` macro writes diagnostics to stderr only and never affects
  control flow or results; it is omitted.
* `thread::spawn`/`join` over pure workers is modelled by evaluating each
  worker in order; a panicking computation is modelled as `none`.
-/

namespace SA

/-- Run options; mirrors `AnnealingOptions` (lib.rs lines 4-11).
`usize` fields become `ℕ`, the `f64` field becomes `ℚ`. -/
structure AnnealingOptions where
  steps : ℕ
  limit_temp : ℚ
  restart : ℕ
  threads : ℕ
  silent : Bool

/-- Abstract model of the `f64` transcendental functions the engine calls:
`.exp()` and `.ln()` (lib.rs lines 98 and 117). -/
structure FloatOps where
  exp : ℚ → ℚ
  ln : ℚ → ℚ

/-- Abstract model of `SmallRng`: `seed_from_u64` plus the uniform-float
draw `rng.gen::<f64>()` (lib.rs lines 72 and 117).  The state type `R` and
both functions are opaque parameters; `u64` seeds become `ℕ`. -/
structure RngOps (R : Type) where
  seed_from_u64 : ℕ → R
  gen_f64 : R → ℚ × R

/-- Abstract model of `StdRng` as used by the orchestrator: `seed_from_u64`
plus the `u64` draw `rng.gen()` for per-thread seeds (lib.rs lines 48, 53). -/
structure StdRngOps (R : Type) where
  seed_from_u64 : ℕ → R
  gen_u64 : R → ℕ × R

/-- The `Annealer` trait (lib.rs lines 13-35), with associated types `State`
and `Move` and the rng threaded explicitly.  `is_done` defaults to
`fun _ => false` in the source; `apply_and_eval` defaults to apply-then-eval
(see `defaultApplyAndEval`).  Both are plain fields here and the defaults are
separate definitions. -/
structure Annealer (S M R : Type) where
  init_state : R → S × R
  start_temp : ℚ → ℚ
  is_done : ℚ → Bool
  eval : S → ℚ
  neighbour : S → R → M × R
  apply : S → M → S
  unapply : S → M → S
  apply_and_eval : S → M → ℚ → S × ℚ

variable {S M R RS : Type}

/-- Default body of `apply_and_eval` (lib.rs lines 31-34): apply the move,
then evaluate from scratch. -/
def defaultApplyAndEval (apply : S → M → S) (eval : S → ℚ) :
    S → M → ℚ → S × ℚ :=
  fun s m _ => (apply s m, eval (apply s m))

/-- The mutable locals of the `do_annealing` loop (lib.rs lines 72-102)
gathered in one record.  `reheats` is instrumentation only: it counts the
temperature resets actually performed (line 110); it influences nothing. -/
structure LoopSt (S R : Type) where
  rng : R
  state : S
  cur_score : ℚ
  best_score : ℚ
  best_ans : S
  restart_cnt : ℕ
  temp : ℚ
  reheats : ℕ

/-- The reheat check at the top of the loop (lib.rs lines 104-111):
if the temperature fell below `t_min`, bump `restart_cnt` and either break
(returning the best pair; `inl`) or reset the temperature to `t_max` and
fall through to the move step with the candidate state untouched (`inr`).
The increment on the breaking path is dead in the source and is omitted. -/
def restartCheck (opt : AnnealingOptions) (t_max t_min : ℚ) (st : LoopSt S R) :
    (ℚ × S) ⊕ LoopSt S R :=
  if st.temp < t_min then
    if st.restart_cnt + 1 ≥ opt.restart then Sum.inl (st.best_score, st.best_ans)
    else Sum.inr { st with restart_cnt := st.restart_cnt + 1, temp := t_max,
                           reheats := st.reheats + 1 }
  else Sum.inr st

/-- The best-so-far update on acceptance (lib.rs lines 120-126): on a strict
improvement of `cur_score` over `best_score`, snapshot the state. -/
def bestUpdate (st : LoopSt S R) (new_score : ℚ) (state : S) : ℚ × S :=
  if new_score < st.best_score then (new_score, state)
  else (st.best_score, st.best_ans)

/-- Bookkeeping of an accepted move (lib.rs lines 119-129): set
`cur_score := new_score`, update the best pair on strict improvement, then
break if `is_done` fires (`inl`), else continue with the decayed
temperature (`inr`, line 134). -/
def acceptMove (a : Annealer S M R) (decay : ℚ) (st : LoopSt S R)
    (rng : R) (state : S) (new_score : ℚ) : (ℚ × S) ⊕ LoopSt S R :=
  let best := bestUpdate st new_score state
  if a.is_done new_score then Sum.inl best
  else Sum.inr { rng := rng, state := state, cur_score := new_score,
                 best_score := best.1, best_ans := best.2,
                 restart_cnt := st.restart_cnt, temp := st.temp * decay,
                 reheats := st.reheats }

/-- One pass through the move/accept/reject part of the loop body
(lib.rs lines 113-134).  The `||` in line 116 short-circuits: the uniform
float is drawn only when `new_score > cur_score`.  On rejection `unapply`
reverts the mutation and the decayed temperature is kept (line 134). -/
def coolStep (rops : RngOps R) (a : Annealer S M R) (fops : FloatOps)
    (decay : ℚ) (st : LoopSt S R) : (ℚ × S) ⊕ LoopSt S R :=
  let mv := a.neighbour st.state st.rng
  let ae := a.apply_and_eval st.state mv.1 st.cur_score
  if ae.2 ≤ st.cur_score then
    acceptMove a decay st mv.2 ae.1 ae.2
  else
    let g := rops.gen_f64 mv.2
    if g.1 ≤ fops.exp ((st.cur_score - ae.2) / st.temp) then
      acceptMove a decay st g.2 ae.1 ae.2
    else
      Sum.inr { st with rng := g.2, state := a.unapply ae.1 mv.1,
                        temp := st.temp * decay }

/-- The `loop` of `do_annealing` (lib.rs lines 103-135) with explicit fuel.
`none` means the fuel was exhausted; `some` carries the returned pair
together with the instrumented reheat count. -/
def annealLoop (rops : RngOps R) (a : Annealer S M R) (fops : FloatOps)
    (opt : AnnealingOptions) (t_max t_min decay : ℚ) :
    ℕ → LoopSt S R → Option ((ℚ × S) × ℕ)
  | 0, _ => none
  | fuel + 1, st =>
    match restartCheck opt t_max t_min st with
    | Sum.inl r => some (r, st.reheats)
    | Sum.inr st1 =>
      match coolStep rops a fops decay st1 with
      | Sum.inl r => some (r, st1.reheats)
      | Sum.inr st2 => annealLoop rops a fops opt t_max t_min decay fuel st2

/-- `do_annealing` (lib.rs lines 66-137) including the instrumented reheat
count: seed the rng, build and evaluate the initial state, compute `t_max`,
`t_min` and the decay factor (line 98), then run the loop from temperature
`t_max`.  The `thread_id` argument tags diagnostics only and is omitted. -/
def do_annealing_reheats (rops : RngOps R) (fops : FloatOps)
    (a : Annealer S M R) (opt : AnnealingOptions) (seed : ℕ) (fuel : ℕ) :
    Option ((ℚ × S) × ℕ) :=
  let p := a.init_state (rops.seed_from_u64 seed)
  let cur_score := a.eval p.1
  let t_max := a.start_temp cur_score
  let t_min := opt.limit_temp
  let decay := fops.exp (fops.ln (t_min / t_max) / (opt.steps : ℚ))
  annealLoop rops a fops opt t_max t_min decay fuel
    ⟨p.2, p.1, cur_score, cur_score, p.1, 0, t_max, 0⟩

/-- `do_annealing` proper: the returned `(best_score, best_ans)` pair
(lib.rs line 136), instrumentation projected away. -/
def do_annealing (rops : RngOps R) (fops : FloatOps) (a : Annealer S M R)
    (opt : AnnealingOptions) (seed : ℕ) (fuel : ℕ) : Option (ℚ × S) :=
  (do_annealing_reheats rops fops a opt seed fuel).map (·.1)

/-- The per-thread seeds drawn by the orchestrator (lib.rs lines 50-53):
`n` successive `rng.gen()` draws from the controlling `StdRng`. -/
def deriveSeeds (sops : StdRngOps RS) : RS → ℕ → List ℕ
  | _, 0 => []
  | rs, n + 1 =>
    let g := sops.gen_u64 rs
    g.1 :: deriveSeeds sops g.2 n

/-- Fold of `Iterator::min_by(|a, b| a.0.partial_cmp(&b.0).unwrap())`
(lib.rs line 61), generic in the score type: `pcmp` models `partial_cmp`
and a `none` comparison models the `unwrap` panic (`none` result). -/
def minByGo {β S' : Type} (pcmp : β → β → Option Ordering) :
    β × S' → List (β × S') → Option (β × S')
  | acc, [] => some acc
  | acc, y :: ys =>
    match pcmp acc.1 y.1 with
    | none => none
    | some Ordering.gt => minByGo pcmp y ys
    | some _ => minByGo pcmp acc ys

/-- `min_by` over the whole list (lib.rs lines 59-62); an empty list also
gives `none` (the final `.unwrap()` would panic). -/
def minBy {β S' : Type} (pcmp : β → β → Option Ordering) :
    List (β × S') → Option (β × S')
  | [] => none
  | x :: xs => minByGo pcmp x xs

/-- `partial_cmp` on scores that are genuine rationals: always ordered
(`f64::partial_cmp` returns `Some` exactly on non-NaN floats). -/
def cmpQ : ℚ → ℚ → Option Ordering := fun x y => some (compare x y)

/-- `f64::partial_cmp` on floats that may be NaN, NaN modelled as `none`:
the comparison is `none` whenever either side is NaN. -/
def cmpF : Option ℚ → Option ℚ → Option Ordering
  | some x, some y => some (compare x y)
  | _, _ => none

/-- `th.join().unwrap()` over the spawned workers in spawn order
(lib.rs lines 59-60): if any worker fails to produce a result the whole
call panics (`none`). -/
def joinAll {α : Type} : List (Option α) → Option (List α)
  | [] => some []
  | none :: _ => none
  | some v :: xs =>
    match joinAll xs with
    | some vs => some (v :: vs)
    | none => none

/-- `annealing` (lib.rs lines 37-64).  `assert!(opt.threads > 0)` becomes the
`threads = 0 → none` branch (a panic, before any other work).  With one
thread the single-run solver is called directly with the caller's seed;
otherwise per-thread seeds are derived from a controlling `StdRng` and the
workers' results are reduced with `min_by` on the score.  A worker that does
not complete (`join().unwrap()` on a panicked thread, or fuel exhaustion in
this model) makes the whole call `none`. -/
def annealing (rops : RngOps R) (sops : StdRngOps RS) (fops : FloatOps)
    (a : Annealer S M R) (opt : AnnealingOptions) (seed : ℕ) (fuel : ℕ) :
    Option (ℚ × S) :=
  if opt.threads = 0 then none
  else if opt.threads = 1 then do_annealing rops fops a opt seed fuel
  else
    joinAll ((deriveSeeds sops (sops.seed_from_u64 seed) opt.threads).map
        (fun s => do_annealing rops fops a opt s fuel)) >>=
      minBy cmpQ

/-- The decay factor of lib.rs line 98 read over the real numbers with the
genuine `exp` and `ln`: `exp (ln (t_min / t_max) / steps)`. -/
noncomputable def decayReal (t_min t_max : ℝ) (steps : ℕ) : ℝ :=
  Real.exp (Real.log (t_min / t_max) / (steps : ℝ))

/-- The temperature after `k` decay steps of one cooling pass, over `ℝ`:
`t_max` multiplied `k` times by the decay factor (lib.rs lines 102, 134). -/
noncomputable def tempSeq (t_min t_max : ℝ) (steps : ℕ) (k : ℕ) : ℝ :=
  t_max * decayReal t_min t_max steps ^ k

/-! Concrete instantiations used to exercise the embedding on closed inputs. -/

/-- A trivial rng model over `Unit`: the float draw is always `0`. -/
def unitRng : RngOps Unit := ⟨fun _ => (), fun r => (0, r)⟩

/-- A trivial controlling-rng model over `Unit`: the `u64` draw is always `0`. -/
def unitStd : StdRngOps Unit := ⟨fun _ => (), fun r => (0, r)⟩

/-- A concrete float model: `exp` constantly `1/2`, `ln` constantly `0`. -/
def constFloatOps : FloatOps := ⟨fun _ => 1 / 2, fun _ => 0⟩

/-- A concrete problem over `Unit` state and moves: every state scores `0`,
the starting temperature is `2`, and `is_done` always fires. -/
def constAnnealer : Annealer Unit Unit Unit where
  init_state := fun r => ((), r)
  start_temp := fun _ => 2
  is_done := fun _ => true
  eval := fun _ => 0
  neighbour := fun _ r => ((), r)
  apply := fun s _ => s
  unapply := fun s _ => s
  apply_and_eval := fun s _ _ => (s, 0)

/-- Concrete options with a zero thread count. -/
def optZeroThreads : AnnealingOptions := ⟨10, 1, 1, 0, true⟩

/-- Concrete options with one thread. -/
def optOne : AnnealingOptions := ⟨10, 1, 1, 1, true⟩

/-- Concrete options with two threads. -/
def optTwo : AnnealingOptions := ⟨10, 1, 1, 2, true⟩

/-- A second, different controlling-rng model over `Unit`: the `u64` draw
is always `7`. -/
def otherStd : StdRngOps Unit := ⟨fun _ => (), fun r => (7, r)⟩

/-! Helper lemmas about the loop building blocks. -/

/-- When the reheat check breaks, it returns the current best pair. -/
theorem restartCheck_inl {opt : AnnealingOptions} {t_max t_min : ℚ}
    {st : LoopSt S R} {r : ℚ × S}
    (h : restartCheck opt t_max t_min st = Sum.inl r) :
    r = (st.best_score, st.best_ans) := by
  unfold restartCheck at h
  split_ifs at h
  injection h with h2
  exact h2.symm

/-- When the reheat check continues, every field except `restart_cnt`,
`temp` and the `reheats` instrumentation is unchanged. -/
theorem restartCheck_inr {opt : AnnealingOptions} {t_max t_min : ℚ}
    {st st1 : LoopSt S R}
    (h : restartCheck opt t_max t_min st = Sum.inr st1) :
    st1.rng = st.rng ∧ st1.state = st.state ∧ st1.cur_score = st.cur_score ∧
      st1.best_score = st.best_score ∧ st1.best_ans = st.best_ans := by
  unfold restartCheck at h
  split_ifs at h <;> (injection h with h2; subst h2; exact ⟨rfl, rfl, rfl, rfl, rfl⟩)

/-- The best-update never increases the recorded best score. -/
theorem bestUpdate_le (st : LoopSt S R) (new_score : ℚ) (state : S) :
    (bestUpdate st new_score state).1 ≤ st.best_score := by
  unfold bestUpdate
  split_ifs with hlt
  · exact le_of_lt hlt
  · exact le_refl _

/-- An accepted move that breaks returns a best score no larger than the
previous one. -/
theorem acceptMove_inl {a : Annealer S M R} {decay : ℚ} {st : LoopSt S R}
    {rng : R} {state : S} {new_score : ℚ} {r : ℚ × S}
    (h : acceptMove a decay st rng state new_score = Sum.inl r) :
    r.1 ≤ st.best_score := by
  simp only [acceptMove] at h
  split_ifs at h with hd
  injection h with h2
  subst h2
  exact bestUpdate_le st new_score state

/-- An accepted move that continues never increases the best score, leaves
the restart counters alone, sets `cur_score` to the new score, and decays
the temperature. -/
theorem acceptMove_inr {a : Annealer S M R} {decay : ℚ} {st : LoopSt S R}
    {rng : R} {state : S} {new_score : ℚ} {st2 : LoopSt S R}
    (h : acceptMove a decay st rng state new_score = Sum.inr st2) :
    st2.best_score ≤ st.best_score ∧ st2.restart_cnt = st.restart_cnt ∧
      st2.reheats = st.reheats ∧ st2.temp = st.temp * decay ∧
      st2.cur_score = new_score := by
  simp only [acceptMove] at h
  split_ifs at h with hd
  injection h with h2
  subst h2
  exact ⟨bestUpdate_le st new_score state, rfl, rfl, rfl, rfl⟩

/-- One cooling step that breaks returns a best score no larger than the
previous one. -/
theorem coolStep_inl {rops : RngOps R} {a : Annealer S M R} {fops : FloatOps}
    {decay : ℚ} {st : LoopSt S R} {r : ℚ × S}
    (h : coolStep rops a fops decay st = Sum.inl r) :
    r.1 ≤ st.best_score := by
  simp only [coolStep] at h
  split_ifs at h with h1 h2
  · exact acceptMove_inl h
  · exact acceptMove_inl h

/-- One cooling step that continues never increases the best score, leaves
the restart counters alone, and decays the temperature. -/
theorem coolStep_inr {rops : RngOps R} {a : Annealer S M R} {fops : FloatOps}
    {decay : ℚ} {st st2 : LoopSt S R}
    (h : coolStep rops a fops decay st = Sum.inr st2) :
    st2.best_score ≤ st.best_score ∧ st2.restart_cnt = st.restart_cnt ∧
      st2.reheats = st.reheats ∧ st2.temp = st.temp * decay := by
  simp only [coolStep] at h
  split_ifs at h with h1 h2
  · exact ⟨(acceptMove_inr h).1, (acceptMove_inr h).2.1, (acceptMove_inr h).2.2.1,
      (acceptMove_inr h).2.2.2.1⟩
  · exact ⟨(acceptMove_inr h).1, (acceptMove_inr h).2.1, (acceptMove_inr h).2.2.1,
      (acceptMove_inr h).2.2.2.1⟩
  · simp only [Sum.inr.injEq] at h
    subst h
    exact ⟨le_refl _, rfl, rfl, rfl⟩

/-- Unfolding the loop when the reheat check breaks. -/
theorem annealLoop_eq_of_rc_inl {rops : RngOps R} {a : Annealer S M R}
    {fops : FloatOps} {opt : AnnealingOptions} {t_max t_min decay : ℚ}
    {n : ℕ} {st : LoopSt S R} {q : ℚ × S}
    (hrc : restartCheck opt t_max t_min st = Sum.inl q) :
    annealLoop rops a fops opt t_max t_min decay (n + 1) st =
      some (q, st.reheats) := by
  rw [annealLoop, hrc]

/-- Unfolding the loop when the cooling step breaks. -/
theorem annealLoop_eq_of_cs_inl {rops : RngOps R} {a : Annealer S M R}
    {fops : FloatOps} {opt : AnnealingOptions} {t_max t_min decay : ℚ}
    {n : ℕ} {st st1 : LoopSt S R} {q : ℚ × S}
    (hrc : restartCheck opt t_max t_min st = Sum.inr st1)
    (hcs : coolStep rops a fops decay st1 = Sum.inl q) :
    annealLoop rops a fops opt t_max t_min decay (n + 1) st =
      some (q, st1.reheats) := by
  rw [annealLoop, hrc]
  dsimp only
  rw [hcs]

/-- Unfolding the loop when the iteration continues. -/
theorem annealLoop_eq_of_cont {rops : RngOps R} {a : Annealer S M R}
    {fops : FloatOps} {opt : AnnealingOptions} {t_max t_min decay : ℚ}
    {n : ℕ} {st st1 st2 : LoopSt S R}
    (hrc : restartCheck opt t_max t_min st = Sum.inr st1)
    (hcs : coolStep rops a fops decay st1 = Sum.inr st2) :
    annealLoop rops a fops opt t_max t_min decay (n + 1) st =
      annealLoop rops a fops opt t_max t_min decay n st2 := by
  rw [annealLoop, hrc]
  dsimp only
  rw [hcs]

/-- The completed loop returns a best score no larger than the best score
it was started with. -/
theorem annealLoop_best_le {rops : RngOps R} {a : Annealer S M R}
    {fops : FloatOps} {opt : AnnealingOptions} {t_max t_min decay : ℚ} :
    ∀ (fuel : ℕ) (st : LoopSt S R) (r : (ℚ × S) × ℕ),
      annealLoop rops a fops opt t_max t_min decay fuel st = some r →
      r.1.1 ≤ st.best_score := by
  intro fuel
  induction fuel with
  | zero => intro st r h; simp [annealLoop] at h
  | succ n ih =>
    intro st r h
    cases hrc : restartCheck opt t_max t_min st with
    | inl q =>
      rw [annealLoop_eq_of_rc_inl hrc] at h
      cases h
      simp [restartCheck_inl hrc]
    | inr st1 =>
      have hb1 := (restartCheck_inr hrc).2.2.2.1
      cases hcs : coolStep rops a fops decay st1 with
      | inl q =>
        rw [annealLoop_eq_of_cs_inl hrc hcs] at h
        cases h
        calc q.1 ≤ st1.best_score := coolStep_inl hcs
          _ = st.best_score := hb1
      | inr st2 =>
        rw [annealLoop_eq_of_cont hrc hcs] at h
        calc r.1.1 ≤ st2.best_score := ih st2 r h
          _ ≤ st1.best_score := (coolStep_inr hcs).1
          _ = st.best_score := hb1

/-! The claims. -/

/-- Claim C1: every completed single run returns a best score that is at
most the score of the initial state as evaluated right after `init_state`;
`best_score` is initialised to that value and never increases. -/
theorem C1_best_le_init_score (rops : RngOps R) (fops : FloatOps)
    (a : Annealer S M R) (opt : AnnealingOptions) (seed fuel : ℕ)
    (r : ℚ × S)
    (h : do_annealing rops fops a opt seed fuel = some r) :
    r.1 ≤ a.eval (a.init_state (rops.seed_from_u64 seed)).1 := by
  simp only [do_annealing, do_annealing_reheats, Option.map_eq_some'] at h
  obtain ⟨p, hp, hr⟩ := h
  subst hr
  exact annealLoop_best_le fuel _ p hp

/-- Witness for C1: a run of the concrete problem completes and the bound
holds at it. -/
theorem C1_best_le_init_score_witness :
    do_annealing unitRng constFloatOps constAnnealer optOne 0 1 =
      some (0, ()) ∧
    (0 : ℚ) ≤ constAnnealer.eval
        (constAnnealer.init_state (unitRng.seed_from_u64 0)).1 :=
  ⟨by decide,
   C1_best_le_init_score unitRng constFloatOps constAnnealer optOne 0 1
     (0, ()) (by decide)⟩

/-- Claim C8: calling `annealing` with `threads = 0` is an immediate fatal
abort (`assert!` panic, modelled `none`) for every problem definition, rng
model and float model alike — no other work is done. -/
theorem C8_zero_threads_panics (rops : RngOps R) (sops : StdRngOps RS)
    (fops : FloatOps) (a : Annealer S M R) (opt : AnnealingOptions)
    (seed fuel : ℕ) (h : opt.threads = 0) :
    annealing rops sops fops a opt seed fuel = none := by
  simp [annealing, h]

/-- Witness for C8 at concrete options with a zero thread count. -/
theorem C8_zero_threads_panics_witness :
    optZeroThreads.threads = 0 ∧
    annealing unitRng unitStd constFloatOps constAnnealer optZeroThreads 3 5 =
      none :=
  ⟨rfl, C8_zero_threads_panics unitRng unitStd constFloatOps constAnnealer
    optZeroThreads 3 5 rfl⟩

/-- Claim C4: over the reals, the per-step decay factor
`exp (ln (limit_temp / start_temp) / steps)` lies strictly in `(0, 1)`
whenever `0 < limit_temp < start_temp`; `steps` successive multiplications
take the temperature from `t_max` exactly down to `t_min`; and the
temperature sequence within one cooling pass is strictly decreasing. -/
theorem C4_decay_in_unit_interval (t_min t_max : ℝ) (steps : ℕ)
    (h0 : 0 < t_min) (hlt : t_min < t_max) (hs : 1 ≤ steps) :
    (0 < decayReal t_min t_max steps ∧ decayReal t_min t_max steps < 1) ∧
    tempSeq t_min t_max steps steps = t_min ∧
    ∀ k l : ℕ, k < l →
      tempSeq t_min t_max steps l < tempSeq t_min t_max steps k := by
  have htmax : 0 < t_max := h0.trans hlt
  have hr0 : 0 < t_min / t_max := div_pos h0 htmax
  have hr1 : t_min / t_max < 1 := (div_lt_one htmax).mpr hlt
  have hlog : Real.log (t_min / t_max) < 0 := Real.log_neg hr0 hr1
  have hsp : (0 : ℝ) < (steps : ℝ) := by
    have h1 : 0 < steps := lt_of_lt_of_le Nat.zero_lt_one hs
    exact_mod_cast h1
  have hd0 : 0 < decayReal t_min t_max steps := Real.exp_pos _
  have hd1 : decayReal t_min t_max steps < 1 := by
    rw [decayReal, Real.exp_lt_one_iff]
    exact div_neg_of_neg_of_pos hlog hsp
  refine ⟨⟨hd0, hd1⟩, ?_, ?_⟩
  · have hcan : (steps : ℝ) * (Real.log (t_min / t_max) / (steps : ℝ)) =
        Real.log (t_min / t_max) := by
      field_simp
    rw [tempSeq, decayReal, ← Real.exp_nat_mul, hcan, Real.exp_log hr0,
      mul_comm, div_mul_cancel₀ _ (ne_of_gt htmax)]
  · intro k l hkl
    rw [tempSeq, tempSeq]
    exact mul_lt_mul_of_pos_left (pow_lt_pow_right_of_lt_one₀ hd0 hd1 hkl) htmax

/-- Witness for C4 at `t_min = 1`, `t_max = 2`, one step. -/
theorem C4_decay_in_unit_interval_witness :
    (0 : ℝ) < 1 ∧ (1 : ℝ) < 2 ∧
    ((0 < decayReal 1 2 1 ∧ decayReal 1 2 1 < 1) ∧
      tempSeq 1 2 1 1 = 1 ∧
      ∀ k l : ℕ, k < l → tempSeq 1 2 1 l < tempSeq 1 2 1 k) :=
  ⟨one_pos, one_lt_two,
   C4_decay_in_unit_interval 1 2 1 one_pos one_lt_two (le_refl 1)⟩

/-- Claim C3: in one cooling iteration, the move is accepted iff
`new_score ≤ cur_score` or the drawn uniform float is at most
`exp ((cur_score - new_score) / temp)`; acceptance runs the
accept bookkeeping (which sets `cur_score := new_score` and, unless
`is_done` breaks, multiplies the temperature by `decay`); on rejection the
state mutation is reverted by `unapply` with the very move that was
applied, and the temperature is likewise multiplied by `decay`. -/
theorem C3_metropolis_iteration (rops : RngOps R) (a : Annealer S M R)
    (fops : FloatOps) (decay : ℚ) (st : LoopSt S R)
    (mov : M) (rng1 : R) (state1 : S) (new_score u : ℚ) (rng2 : R)
    (hm : a.neighbour st.state st.rng = (mov, rng1))
    (hae : a.apply_and_eval st.state mov st.cur_score = (state1, new_score))
    (hu : rops.gen_f64 rng1 = (u, rng2)) :
    (new_score ≤ st.cur_score ∨
        u ≤ fops.exp ((st.cur_score - new_score) / st.temp) →
      coolStep rops a fops decay st =
        acceptMove a decay st
          (if new_score ≤ st.cur_score then rng1 else rng2) state1 new_score) ∧
    (¬(new_score ≤ st.cur_score ∨
        u ≤ fops.exp ((st.cur_score - new_score) / st.temp)) →
      coolStep rops a fops decay st =
        Sum.inr { st with rng := rng2, state := a.unapply state1 mov,
                          temp := st.temp * decay }) ∧
    (∀ (rng : R) (st2 : LoopSt S R),
      acceptMove a decay st rng state1 new_score = Sum.inr st2 →
      st2.cur_score = new_score ∧ st2.temp = st.temp * decay) := by
  refine ⟨?_, ?_, ?_⟩
  · intro hacc
    by_cases h1 : new_score ≤ st.cur_score
    · rw [if_pos h1]
      simp only [coolStep, hm, hae]
      rw [if_pos h1]
    · rw [if_neg h1]
      have h2 : u ≤ fops.exp ((st.cur_score - new_score) / st.temp) :=
        hacc.resolve_left h1
      simp only [coolStep, hm, hae, hu]
      rw [if_neg h1, if_pos h2]
  · intro hrej
    rw [not_or] at hrej
    simp only [coolStep, hm, hae, hu]
    rw [if_neg hrej.1, if_neg hrej.2]
  · intro rng st2 h
    exact ⟨(acceptMove_inr h).2.2.2.2, (acceptMove_inr h).2.2.2.1⟩

/-- Witness for C3 at the concrete problem: every hypothesis holds
definitionally and the characterisation follows. -/
theorem C3_metropolis_iteration_witness :
    constAnnealer.neighbour () () = ((), ()) ∧
    constAnnealer.apply_and_eval () () 0 = ((), 0) ∧
    unitRng.gen_f64 () = (0, ()) ∧
    ((0 : ℚ) ≤ (0 : ℚ) ∨
        (0 : ℚ) ≤ constFloatOps.exp ((0 - 0) / 2) →
      coolStep unitRng constAnnealer constFloatOps (1 / 2)
          ⟨(), (), 0, 0, (), 0, 2, 0⟩ =
        acceptMove constAnnealer (1 / 2) ⟨(), (), 0, 0, (), 0, 2, 0⟩
          (if (0 : ℚ) ≤ (0 : ℚ) then () else ()) () 0) ∧
    (¬((0 : ℚ) ≤ (0 : ℚ) ∨
        (0 : ℚ) ≤ constFloatOps.exp ((0 - 0) / 2)) →
      coolStep unitRng constAnnealer constFloatOps (1 / 2)
          ⟨(), (), 0, 0, (), 0, 2, 0⟩ =
        Sum.inr ⟨(), constAnnealer.unapply () (), 0, 0, (), 0, 2 * (1 / 2), 0⟩) ∧
    (∀ (rng : Unit) (st2 : LoopSt Unit Unit),
      acceptMove constAnnealer (1 / 2) ⟨(), (), 0, 0, (), 0, 2, 0⟩ rng () 0 =
        Sum.inr st2 →
      st2.cur_score = 0 ∧ st2.temp = 2 * (1 / 2)) := by
  refine ⟨rfl, rfl, rfl, ?_⟩
  exact C3_metropolis_iteration unitRng constAnnealer constFloatOps (1 / 2)
    ⟨(), (), 0, 0, (), 0, 2, 0⟩ () () () 0 0 () rfl rfl rfl

/-- The reheat check either keeps both counters or performs one reheat,
which requires the bumped counter to stay below the restart limit. -/
theorem restartCheck_inr_cnt {opt : AnnealingOptions} {t_max t_min : ℚ}
    {st st1 : LoopSt S R}
    (h : restartCheck opt t_max t_min st = Sum.inr st1) :
    (st1.restart_cnt = st.restart_cnt ∧ st1.reheats = st.reheats) ∨
    (st.restart_cnt + 1 < opt.restart ∧
      st1.restart_cnt = st.restart_cnt + 1 ∧ st1.reheats = st.reheats + 1) := by
  unfold restartCheck at h
  split_ifs at h with h1 h2
  · injection h with h3
    subst h3
    right
    exact ⟨Nat.lt_of_not_le fun hc => h2 hc, rfl, rfl⟩
  · injection h with h3
    subst h3
    left
    exact ⟨rfl, rfl⟩

/-- Loop invariant for the reheat instrumentation: if the count of reheats
performed so far is bounded by the current `restart_cnt` and by the restart
limit, the final count stays bounded by the restart limit. -/
theorem annealLoop_reheats_le {rops : RngOps R} {a : Annealer S M R}
    {fops : FloatOps} {opt : AnnealingOptions} {t_max t_min decay : ℚ} :
    ∀ (fuel : ℕ) (st : LoopSt S R) (r : (ℚ × S) × ℕ),
      st.reheats ≤ st.restart_cnt → st.reheats ≤ opt.restart →
      annealLoop rops a fops opt t_max t_min decay fuel st = some r →
      r.2 ≤ opt.restart := by
  intro fuel
  induction fuel with
  | zero => intro st r h1 h2 h; simp [annealLoop] at h
  | succ n ih =>
    intro st r h1 h2 h
    cases hrc : restartCheck opt t_max t_min st with
    | inl q =>
      rw [annealLoop_eq_of_rc_inl hrc] at h
      cases h
      exact h2
    | inr st1 =>
      have hsub : st1.reheats ≤ st1.restart_cnt ∧ st1.reheats ≤ opt.restart := by
        rcases restartCheck_inr_cnt hrc with ⟨e1, e2⟩ | ⟨hlt, e1, e2⟩
        · rw [e1, e2]; exact ⟨h1, h2⟩
        · rw [e1, e2]; omega
      cases hcs : coolStep rops a fops decay st1 with
      | inl q =>
        rw [annealLoop_eq_of_cs_inl hrc hcs] at h
        cases h
        exact hsub.2
      | inr st2 =>
        rw [annealLoop_eq_of_cont hrc hcs] at h
        have e := coolStep_inr hcs
        refine ih st2 r ?_ ?_ h
        · rw [e.2.2.1, e.2.1]; exact hsub.1
        · rw [e.2.2.1]; exact hsub.2

/-- Claim C5: the number of reheats a completed run performs never exceeds
the configured `restart` limit; and whenever the temperature has dropped
below `limit_temp`, the run either terminates with `(best_score, best_ans)`
(counter exhausted) or resets the temperature to `t_max` leaving the
candidate state, current score, and best pair untouched. -/
theorem C5_reheats_bounded (rops : RngOps R) (fops : FloatOps)
    (a : Annealer S M R) (opt : AnnealingOptions) (seed fuel : ℕ)
    (r : (ℚ × S) × ℕ)
    (h : do_annealing_reheats rops fops a opt seed fuel = some r) :
    r.2 ≤ opt.restart ∧
    ∀ (t_max t_min : ℚ) (st : LoopSt S R), st.temp < t_min →
      (st.restart_cnt + 1 ≥ opt.restart →
        restartCheck opt t_max t_min st =
          Sum.inl (st.best_score, st.best_ans)) ∧
      (st.restart_cnt + 1 < opt.restart →
        restartCheck opt t_max t_min st =
          Sum.inr { st with restart_cnt := st.restart_cnt + 1, temp := t_max,
                            reheats := st.reheats + 1 }) := by
  constructor
  · simp only [do_annealing_reheats] at h
    exact annealLoop_reheats_le fuel _ r (le_refl 0) (Nat.zero_le _) h
  · intro t_max t_min st hlt
    constructor
    · intro hge
      unfold restartCheck
      rw [if_pos hlt, if_pos hge]
    · intro hlt2
      unfold restartCheck
      rw [if_pos hlt, if_neg (Nat.not_le.mpr hlt2)]

/-- Witness for C5: the concrete run completes with zero reheats. -/
theorem C5_reheats_bounded_witness :
    do_annealing_reheats unitRng constFloatOps constAnnealer optOne 0 1 =
      some ((0, ()), 0) ∧
    (0 ≤ optOne.restart ∧
      ∀ (t_max t_min : ℚ) (st : LoopSt Unit Unit), st.temp < t_min →
        (st.restart_cnt + 1 ≥ optOne.restart →
          restartCheck optOne t_max t_min st =
            Sum.inl (st.best_score, st.best_ans)) ∧
        (st.restart_cnt + 1 < optOne.restart →
          restartCheck optOne t_max t_min st =
            Sum.inr { st with restart_cnt := st.restart_cnt + 1,
                              temp := t_max, reheats := st.reheats + 1 })) :=
  ⟨by decide,
   C5_reheats_bounded unitRng constFloatOps constAnnealer optOne 0 1
     ((0, ()), 0) (by decide)⟩

/-- If the snapshot in `st` scores exactly `best_score` and the accepted
state scores exactly `new_score`, the updated snapshot scores the updated
best score. -/
theorem bestUpdate_eval {a : Annealer S M R} {st : LoopSt S R}
    {new_score : ℚ} {state : S}
    (hinv : a.eval st.best_ans = st.best_score)
    (hstate : a.eval state = new_score) :
    a.eval (bestUpdate st new_score state).2 =
      (bestUpdate st new_score state).1 := by
  unfold bestUpdate
  split_ifs with hlt
  · exact hstate
  · exact hinv

/-- Acceptance bookkeeping preserves the snapshot/score consistency when it
breaks. -/
theorem acceptMove_eval_inl {a : Annealer S M R} {decay : ℚ}
    {st : LoopSt S R} {rng : R} {state : S} {new_score : ℚ} {r : ℚ × S}
    (hinv : a.eval st.best_ans = st.best_score)
    (hstate : a.eval state = new_score)
    (h : acceptMove a decay st rng state new_score = Sum.inl r) :
    a.eval r.2 = r.1 := by
  simp only [acceptMove] at h
  split_ifs at h with hd
  injection h with h2
  subst h2
  exact bestUpdate_eval hinv hstate

/-- Acceptance bookkeeping preserves the snapshot/score consistency when it
continues. -/
theorem acceptMove_eval_inr {a : Annealer S M R} {decay : ℚ}
    {st : LoopSt S R} {rng : R} {state : S} {new_score : ℚ}
    {st2 : LoopSt S R}
    (hinv : a.eval st.best_ans = st.best_score)
    (hstate : a.eval state = new_score)
    (h : acceptMove a decay st rng state new_score = Sum.inr st2) :
    a.eval st2.best_ans = st2.best_score := by
  simp only [acceptMove] at h
  split_ifs at h with hd
  injection h with h2
  subst h2
  exact bestUpdate_eval hinv hstate

/-- A cooling step that breaks preserves the snapshot/score consistency,
given that `apply_and_eval` reports exactly the score of the state it
returns. -/
theorem coolStep_eval_inl {rops : RngOps R} {a : Annealer S M R}
    {fops : FloatOps} {decay : ℚ} {st : LoopSt S R} {r : ℚ × S}
    (hAE : ∀ (s : S) (m : M) (p : ℚ),
      (a.apply_and_eval s m p).2 = a.eval (a.apply_and_eval s m p).1)
    (hinv : a.eval st.best_ans = st.best_score)
    (h : coolStep rops a fops decay st = Sum.inl r) :
    a.eval r.2 = r.1 := by
  simp only [coolStep] at h
  split_ifs at h with h1 h2
  · exact acceptMove_eval_inl hinv
      (hAE st.state (a.neighbour st.state st.rng).1 st.cur_score).symm h
  · exact acceptMove_eval_inl hinv
      (hAE st.state (a.neighbour st.state st.rng).1 st.cur_score).symm h

/-- A cooling step that continues preserves the snapshot/score
consistency, under the same `apply_and_eval` contract. -/
theorem coolStep_eval_inr {rops : RngOps R} {a : Annealer S M R}
    {fops : FloatOps} {decay : ℚ} {st st2 : LoopSt S R}
    (hAE : ∀ (s : S) (m : M) (p : ℚ),
      (a.apply_and_eval s m p).2 = a.eval (a.apply_and_eval s m p).1)
    (hinv : a.eval st.best_ans = st.best_score)
    (h : coolStep rops a fops decay st = Sum.inr st2) :
    a.eval st2.best_ans = st2.best_score := by
  simp only [coolStep] at h
  split_ifs at h with h1 h2
  · exact acceptMove_eval_inr hinv
      (hAE st.state (a.neighbour st.state st.rng).1 st.cur_score).symm h
  · exact acceptMove_eval_inr hinv
      (hAE st.state (a.neighbour st.state st.rng).1 st.cur_score).symm h
  · injection h with h2
    subst h2
    exact hinv

/-- Loop invariant: the best snapshot always scores the best score. -/
theorem annealLoop_eval {rops : RngOps R} {a : Annealer S M R}
    {fops : FloatOps} {opt : AnnealingOptions} {t_max t_min decay : ℚ}
    (hAE : ∀ (s : S) (m : M) (p : ℚ),
      (a.apply_and_eval s m p).2 = a.eval (a.apply_and_eval s m p).1) :
    ∀ (fuel : ℕ) (st : LoopSt S R) (r : (ℚ × S) × ℕ),
      a.eval st.best_ans = st.best_score →
      annealLoop rops a fops opt t_max t_min decay fuel st = some r →
      a.eval r.1.2 = r.1.1 := by
  intro fuel
  induction fuel with
  | zero => intro st r hinv h; simp [annealLoop] at h
  | succ n ih =>
    intro st r hinv h
    cases hrc : restartCheck opt t_max t_min st with
    | inl q =>
      rw [annealLoop_eq_of_rc_inl hrc] at h
      cases h
      rw [restartCheck_inl hrc]
      exact hinv
    | inr st1 =>
      have hinv1 : a.eval st1.best_ans = st1.best_score := by
        rw [(restartCheck_inr hrc).2.2.2.2, (restartCheck_inr hrc).2.2.2.1]
        exact hinv
      cases hcs : coolStep rops a fops decay st1 with
      | inl q =>
        rw [annealLoop_eq_of_cs_inl hrc hcs] at h
        cases h
        exact coolStep_eval_inl hAE hinv1 hcs
      | inr st2 =>
        rw [annealLoop_eq_of_cont hrc hcs] at h
        exact ih st2 r (coolStep_eval_inr hAE hinv1 hcs) h

/-- Claim C9: whenever `apply_and_eval` returns exactly the score of the
state it produces (as the default apply-then-eval body guarantees), the
returned pair of a completed run satisfies `eval best_state = best_score`:
the snapshot cloned into `best_ans` is the state whose score was recorded. -/
theorem C9_best_pair_consistent (rops : RngOps R) (fops : FloatOps)
    (a : Annealer S M R) (opt : AnnealingOptions) (seed fuel : ℕ)
    (r : ℚ × S)
    (hAE : ∀ (s : S) (m : M) (p : ℚ),
      (a.apply_and_eval s m p).2 = a.eval (a.apply_and_eval s m p).1)
    (h : do_annealing rops fops a opt seed fuel = some r) :
    a.eval r.2 = r.1 := by
  simp only [do_annealing, do_annealing_reheats, Option.map_eq_some'] at h
  obtain ⟨p, hp, hr⟩ := h
  subst hr
  exact annealLoop_eval hAE fuel _ p rfl hp

/-- Witness for C9 at the concrete problem. -/
theorem C9_best_pair_consistent_witness :
    (∀ (s m : Unit) (p : ℚ),
      (constAnnealer.apply_and_eval s m p).2 =
        constAnnealer.eval (constAnnealer.apply_and_eval s m p).1) ∧
    do_annealing unitRng constFloatOps constAnnealer optOne 0 1 =
      some (0, ()) ∧
    constAnnealer.eval (((0 : ℚ), ())).2 = ((0 : ℚ), ()).1 :=
  ⟨fun _ _ _ => rfl, by decide,
   C9_best_pair_consistent unitRng constFloatOps constAnnealer optOne 0 1
     (0, ()) (fun _ _ _ => rfl) (by decide)⟩

/-- Claim C6: with one thread the whole computation is a deterministic pure
function of the seed, the options, and the problem definition: two
invocations with equal arguments (and even different controlling-rng
models, which are never consulted) return identical results, both equal to
the single run with the caller's seed. -/
theorem C6_single_thread_deterministic (rops : RngOps R)
    (sops1 sops2 : StdRngOps RS) (fops : FloatOps) (a1 a2 : Annealer S M R)
    (opt1 opt2 : AnnealingOptions) (seed1 seed2 fuel : ℕ)
    (ht : opt1.threads = 1) (ha : a1 = a2) (ho : opt1 = opt2)
    (hs : seed1 = seed2) :
    annealing rops sops1 fops a1 opt1 seed1 fuel =
      annealing rops sops2 fops a2 opt2 seed2 fuel ∧
    annealing rops sops1 fops a1 opt1 seed1 fuel =
      do_annealing rops fops a1 opt1 seed1 fuel := by
  subst ha ho hs
  constructor
  · simp [annealing, ht]
  · simp [annealing, ht]

/-- Witness for C6 with two distinct controlling-rng models. -/
theorem C6_single_thread_deterministic_witness :
    optOne.threads = 1 ∧
    (annealing unitRng unitStd constFloatOps constAnnealer optOne 0 1 =
        annealing unitRng otherStd constFloatOps constAnnealer optOne 0 1 ∧
      annealing unitRng unitStd constFloatOps constAnnealer optOne 0 1 =
        do_annealing unitRng constFloatOps constAnnealer optOne 0 1) :=
  ⟨rfl, C6_single_thread_deterministic unitRng unitStd otherStd constFloatOps
    constAnnealer constAnnealer optOne optOne 0 0 1 rfl rfl rfl rfl⟩

/-- The `min_by` fold panics whenever its tail is nonempty and some score
(accumulator or tail element) is NaN. -/
theorem minByGo_nan {S' : Type} :
    ∀ (xs : List (Option ℚ × S')) (acc : Option ℚ × S'),
      xs ≠ [] → (acc.1 = none ∨ ∃ y ∈ xs, y.1 = none) →
      minByGo cmpF acc xs = none := by
  intro xs
  induction xs with
  | nil => intro acc h; exact absurd rfl h
  | cons y ys ih =>
    intro acc _ hnan
    rcases hy : y.1 with _ | qy
    · rcases ha : acc.1 with _ | qa <;> simp [minByGo, cmpF, ha, hy]
    · rcases ha : acc.1 with _ | qa
      · simp [minByGo, cmpF, ha, hy]
      · have hys : ∃ z ∈ ys, z.1 = none := by
          rcases hnan with h | ⟨z, hz, hzn⟩
          · rw [ha] at h; exact absurd h (by simp)
          · rcases List.mem_cons.mp hz with rfl | hz2
            · rw [hy] at hzn; exact absurd hzn (by simp)
            · exact ⟨z, hz2, hzn⟩
        have hysne : ys ≠ [] := by
          rcases hys with ⟨z, hz, _⟩
          intro he
          rw [he] at hz
          exact absurd hz (List.not_mem_nil z)
        rw [minByGo, ha, hy]
        simp only [cmpF]
        cases hc : compare qa qy
        · exact ih acc hysne (Or.inr hys)
        · exact ih acc hysne (Or.inr hys)
        · exact ih y hysne (Or.inr hys)

/-- Two non-NaN scores never compare to `gt` when the first value is at
most the second. -/
theorem cmpF_ne_gt {o1 o2 : Option ℚ} {q1 q2 : ℚ}
    (h1 : o1 = some q1) (h2 : o2 = some q2) (hle : q1 ≤ q2) :
    cmpF o1 o2 ≠ some Ordering.gt := by
  rw [h1, h2]
  simp only [cmpF, ne_eq, Option.some.injEq]
  exact compare_le_iff_le.mpr hle

/-- The `min_by` fold over ordered (non-NaN) scores returns an element that
is a minimum with respect to the accumulator and every listed element. -/
theorem minByGo_ordered {S' : Type} :
    ∀ (xs : List (Option ℚ × S')) (acc : Option ℚ × S'),
      acc.1 ≠ none → (∀ x ∈ xs, x.1 ≠ none) →
      ∃ r, minByGo cmpF acc xs = some r ∧ (r = acc ∨ r ∈ xs) ∧
        cmpF r.1 acc.1 ≠ some Ordering.gt ∧
        ∀ x ∈ xs, cmpF r.1 x.1 ≠ some Ordering.gt := by
  intro xs
  induction xs with
  | nil =>
    intro acc hacc _
    obtain ⟨qa, ha⟩ := Option.ne_none_iff_exists'.mp hacc
    refine ⟨acc, by rw [minByGo], Or.inl rfl, cmpF_ne_gt ha ha (le_refl qa),
      by simp⟩
  | cons y ys ih =>
    intro acc hacc hall
    have hy : y.1 ≠ none := hall y (List.mem_cons_self y ys)
    have hall2 : ∀ x ∈ ys, x.1 ≠ none :=
      fun x hx => hall x (List.mem_cons_of_mem y hx)
    obtain ⟨qa, ha⟩ := Option.ne_none_iff_exists'.mp hacc
    obtain ⟨qy, hyq⟩ := Option.ne_none_iff_exists'.mp hy
    cases hc : compare qa qy with
    | gt =>
      obtain ⟨r, hr, hmem, hracc, hrall⟩ := ih y hy hall2
      have hrne : r.1 ≠ none := by
        rcases hmem with rfl | hm
        · exact hy
        · exact hall2 r hm
      obtain ⟨qr, hrq⟩ := Option.ne_none_iff_exists'.mp hrne
      have hqr_le_qy : qr ≤ qy := by
        have h3 := hracc
        rw [hrq, hyq] at h3
        simp only [cmpF, ne_eq, Option.some.injEq] at h3
        exact compare_le_iff_le.mp h3
      have hqy_lt_qa : qy < qa := compare_gt_iff_gt.mp hc
      refine ⟨r, ?_, Or.inr ?_, ?_, ?_⟩
      · rw [minByGo, ha, hyq]
        simp only [cmpF]
        rw [hc]
        exact hr
      · rcases hmem with rfl | hm
        · exact List.mem_cons_self r ys
        · exact List.mem_cons_of_mem y hm
      · exact cmpF_ne_gt hrq ha (le_trans hqr_le_qy (le_of_lt hqy_lt_qa))
      · intro x hx
        rcases List.mem_cons.mp hx with rfl | hx2
        · exact hracc
        · exact hrall x hx2
    | lt =>
      obtain ⟨r, hr, hmem, hracc, hrall⟩ := ih acc hacc hall2
      have hrne : r.1 ≠ none := by
        rcases hmem with rfl | hm
        · exact hacc
        · exact hall2 r hm
      obtain ⟨qr, hrq⟩ := Option.ne_none_iff_exists'.mp hrne
      have hqr_le_qa : qr ≤ qa := by
        have h3 := hracc
        rw [hrq, ha] at h3
        simp only [cmpF, ne_eq, Option.some.injEq] at h3
        exact compare_le_iff_le.mp h3
      have hqa_le_qy : qa ≤ qy := le_of_lt (compare_lt_iff_lt.mp hc)
      refine ⟨r, ?_, ?_, hracc, ?_⟩
      · rw [minByGo, ha, hyq]
        simp only [cmpF]
        rw [hc]
        exact hr
      · rcases hmem with rfl | hm
        · exact Or.inl rfl
        · exact Or.inr (List.mem_cons_of_mem y hm)
      · intro x hx
        rcases List.mem_cons.mp hx with rfl | hx2
        · exact cmpF_ne_gt hrq hyq (le_trans hqr_le_qa hqa_le_qy)
        · exact hrall x hx2
    | eq =>
      obtain ⟨r, hr, hmem, hracc, hrall⟩ := ih acc hacc hall2
      have hrne : r.1 ≠ none := by
        rcases hmem with rfl | hm
        · exact hacc
        · exact hall2 r hm
      obtain ⟨qr, hrq⟩ := Option.ne_none_iff_exists'.mp hrne
      have hqr_le_qa : qr ≤ qa := by
        have h3 := hracc
        rw [hrq, ha] at h3
        simp only [cmpF, ne_eq, Option.some.injEq] at h3
        exact compare_le_iff_le.mp h3
      have hqa_le_qy : qa ≤ qy := le_of_eq (compare_eq_iff_eq.mp hc)
      refine ⟨r, ?_, ?_, hracc, ?_⟩
      · rw [minByGo, ha, hyq]
        simp only [cmpF]
        rw [hc]
        exact hr
      · rcases hmem with rfl | hm
        · exact Or.inl rfl
        · exact Or.inr (List.mem_cons_of_mem y hm)
      · intro x hx
        rcases List.mem_cons.mp hx with rfl | hx2
        · exact cmpF_ne_gt hrq hyq (le_trans hqr_le_qa hqa_le_qy)
        · exact hrall x hx2

/-- Claim C10: the multi-thread reduction compares worker scores with
`partial_cmp` and unwraps the result, so with at least two workers any NaN
score makes the whole reduction panic instead of returning a result; a
non-NaN minimum is guaranteed exactly when every score is an ordered
float. -/
theorem C10_nan_reduction (l : List (Option ℚ × S)) :
    (2 ≤ l.length → (∃ x ∈ l, x.1 = none) → minBy cmpF l = none) ∧
    ((∀ x ∈ l, x.1 ≠ none) → l ≠ [] →
      ∃ r, minBy cmpF l = some r ∧ r ∈ l ∧ r.1 ≠ none ∧
        ∀ x ∈ l, cmpF r.1 x.1 ≠ some Ordering.gt) := by
  constructor
  · intro hlen hnan
    cases l with
    | nil => simp at hlen
    | cons x xs =>
      rw [minBy]
      have hxs : xs ≠ [] := by
        cases xs with
        | nil => simp at hlen
        | cons _ _ => simp
      apply minByGo_nan xs x hxs
      rcases hnan with ⟨z, hz, hzn⟩
      rcases List.mem_cons.mp hz with rfl | h2
      · exact Or.inl hzn
      · exact Or.inr ⟨z, h2, hzn⟩
  · intro hall hne
    cases l with
    | nil => exact absurd rfl hne
    | cons x xs =>
      obtain ⟨r, hr, hmem, hracc, hrall⟩ :=
        minByGo_ordered xs x (hall x (List.mem_cons_self x xs))
          (fun z hz => hall z (List.mem_cons_of_mem x hz))
      have hrmem : r ∈ x :: xs := by
        rcases hmem with rfl | hm
        · exact List.mem_cons_self r xs
        · exact List.mem_cons_of_mem x hm
      refine ⟨r, ?_, hrmem, hall r hrmem, ?_⟩
      · rw [minBy]
        exact hr
      · intro z hz
        rcases List.mem_cons.mp hz with rfl | h2
        · exact hracc
        · exact hrall z h2

/-- Witness for C10: a NaN in a two-element list panics the reduction; an
ordered two-element list yields its minimum. -/
theorem C10_nan_reduction_witness :
    minBy cmpF [((none : Option ℚ), ()), (some 1, ())] = none ∧
    ∃ r, minBy cmpF [((some 2 : Option ℚ), ()), (some 1, ())] = some r ∧
      r ∈ [((some 2 : Option ℚ), ()), (some 1, ())] ∧ r.1 ≠ none ∧
      ∀ x ∈ [((some 2 : Option ℚ), ()), (some 1, ())],
        cmpF r.1 x.1 ≠ some Ordering.gt :=
  ⟨(C10_nan_reduction _).1 (by decide) ⟨(none, ()), by decide, rfl⟩,
   (C10_nan_reduction _).2 (by decide) (by decide)⟩

/-- Over genuinely rational scores the `min_by` fold always succeeds and
returns a minimum. -/
theorem minByGo_q {S' : Type} :
    ∀ (xs : List (ℚ × S')) (acc : ℚ × S'),
      ∃ r, minByGo cmpQ acc xs = some r ∧ (r = acc ∨ r ∈ xs) ∧
        r.1 ≤ acc.1 ∧ ∀ x ∈ xs, r.1 ≤ x.1 := by
  intro xs
  induction xs with
  | nil =>
    intro acc
    exact ⟨acc, by rw [minByGo], Or.inl rfl, le_refl _, by simp⟩
  | cons y ys ih =>
    intro acc
    cases hc : compare acc.1 y.1 with
    | gt =>
      obtain ⟨r, hr, hmem, hracc, hrall⟩ := ih y
      have hlt : y.1 < acc.1 := compare_gt_iff_gt.mp hc
      refine ⟨r, ?_, Or.inr ?_, le_trans hracc (le_of_lt hlt), ?_⟩
      · rw [minByGo]
        simp only [cmpQ]
        rw [hc]
        exact hr
      · rcases hmem with rfl | hm
        · exact List.mem_cons_self r ys
        · exact List.mem_cons_of_mem y hm
      · intro x hx
        rcases List.mem_cons.mp hx with rfl | hx2
        · exact hracc
        · exact hrall x hx2
    | lt =>
      obtain ⟨r, hr, hmem, hracc, hrall⟩ := ih acc
      have hle : acc.1 ≤ y.1 := le_of_lt (compare_lt_iff_lt.mp hc)
      refine ⟨r, ?_, ?_, hracc, ?_⟩
      · rw [minByGo]
        simp only [cmpQ]
        rw [hc]
        exact hr
      · rcases hmem with rfl | hm
        · exact Or.inl rfl
        · exact Or.inr (List.mem_cons_of_mem y hm)
      · intro x hx
        rcases List.mem_cons.mp hx with rfl | hx2
        · exact le_trans hracc hle
        · exact hrall x hx2
    | eq =>
      obtain ⟨r, hr, hmem, hracc, hrall⟩ := ih acc
      have hle : acc.1 ≤ y.1 := le_of_eq (compare_eq_iff_eq.mp hc)
      refine ⟨r, ?_, ?_, hracc, ?_⟩
      · rw [minByGo]
        simp only [cmpQ]
        rw [hc]
        exact hr
      · rcases hmem with rfl | hm
        · exact Or.inl rfl
        · exact Or.inr (List.mem_cons_of_mem y hm)
      · intro x hx
        rcases List.mem_cons.mp hx with rfl | hx2
        · exact le_trans hracc hle
        · exact hrall x hx2

/-- `min_by` over a nonempty list of rational scores returns a member with
the minimum score. -/
theorem minBy_q {S' : Type} (l : List (ℚ × S')) (hne : l ≠ []) :
    ∃ r, minBy cmpQ l = some r ∧ r ∈ l ∧ ∀ x ∈ l, r.1 ≤ x.1 := by
  cases l with
  | nil => exact absurd rfl hne
  | cons x xs =>
    obtain ⟨r, hr, hmem, hracc, hrall⟩ := minByGo_q xs x
    have hrmem : r ∈ x :: xs := by
      rcases hmem with rfl | hm
      · exact List.mem_cons_self r xs
      · exact List.mem_cons_of_mem x hm
    refine ⟨r, by rw [minBy]; exact hr, hrmem, ?_⟩
    intro z hz
    rcases List.mem_cons.mp hz with rfl | h2
    · exact hracc
    · exact hrall z h2

/-- A successful join preserves the worker count. -/
theorem joinAll_length {α : Type} :
    ∀ (l : List (Option α)) (rs : List α), joinAll l = some rs →
      rs.length = l.length := by
  intro l
  induction l with
  | nil =>
    intro rs h
    rw [joinAll] at h
    injection h with h2
    rw [← h2]
    rfl
  | cons x xs ih =>
    intro rs h
    cases x with
    | none =>
      rw [joinAll] at h
      exact absurd h (by simp)
    | some v =>
      rw [joinAll] at h
      cases hj : joinAll xs with
      | none =>
        rw [hj] at h
        exact absurd h (by simp)
      | some vs =>
        rw [hj] at h
        dsimp only at h
        injection h with h2
        rw [← h2, List.length_cons, ih vs hj, List.length_cons]

/-- The orchestrator derives exactly `n` sub-seeds. -/
theorem deriveSeeds_length (sops : StdRngOps RS) :
    ∀ (n : ℕ) (rs : RS), (deriveSeeds sops rs n).length = n := by
  intro n
  induction n with
  | zero => intro rs; rfl
  | succ m ih => intro rs; rw [deriveSeeds, List.length_cons, ih]

/-- Claim C2: with one thread, `annealing` is exactly the single run with
the caller's seed; with more than one thread, if every worker (run with its
sub-seed derived from the controlling `StdRng`) completes, the call returns
one of the workers' results and its score is the minimum worker score. -/
theorem C2_parallel_reduction (rops : RngOps R) (sops : StdRngOps RS)
    (fops : FloatOps) (a : Annealer S M R) (opt : AnnealingOptions)
    (seed fuel : ℕ) :
    (opt.threads = 1 →
      annealing rops sops fops a opt seed fuel =
        do_annealing rops fops a opt seed fuel) ∧
    ∀ rs : List (ℚ × S), 1 < opt.threads →
      joinAll ((deriveSeeds sops (sops.seed_from_u64 seed) opt.threads).map
          (fun s => do_annealing rops fops a opt s fuel)) = some rs →
      ∃ r, annealing rops sops fops a opt seed fuel = some r ∧
        r ∈ rs ∧ ∀ x ∈ rs, r.1 ≤ x.1 := by
  constructor
  · intro h1
    simp [annealing, h1]
  · intro rs ht hres
    have h0 : ¬opt.threads = 0 := by omega
    have h1 : ¬opt.threads = 1 := by omega
    have hlen : rs.length = opt.threads := by
      rw [joinAll_length _ _ hres, List.length_map, deriveSeeds_length]
    have hne : rs ≠ [] := by
      intro he
      rw [he] at hlen
      simp at hlen
      omega
    obtain ⟨r, hr, hmem, hall⟩ := minBy_q rs hne
    refine ⟨r, ?_, hmem, hall⟩
    unfold annealing
    rw [if_neg h0, if_neg h1, hres]
    exact hr

/-- Witness for C2: both thread counts exercised on the concrete problem. -/
theorem C2_parallel_reduction_witness :
    (optOne.threads = 1 ∧
      annealing unitRng unitStd constFloatOps constAnnealer optOne 0 1 =
        do_annealing unitRng constFloatOps constAnnealer optOne 0 1) ∧
    (1 < optTwo.threads ∧
      joinAll ((deriveSeeds unitStd (unitStd.seed_from_u64 0)
            optTwo.threads).map
          (fun s => do_annealing unitRng constFloatOps constAnnealer optTwo
            s 1)) = some [(0, ()), (0, ())] ∧
      ∃ r, annealing unitRng unitStd constFloatOps constAnnealer optTwo 0 1 =
          some r ∧ r ∈ ([(0, ()), (0, ())] : List (ℚ × Unit)) ∧
        ∀ x ∈ ([(0, ()), (0, ())] : List (ℚ × Unit)), r.1 ≤ x.1) :=
  ⟨⟨rfl, (C2_parallel_reduction unitRng unitStd constFloatOps constAnnealer
      optOne 0 1).1 rfl⟩,
   ⟨by decide, by decide,
    (C2_parallel_reduction unitRng unitStd constFloatOps constAnnealer
      optTwo 0 1).2 [(0, ()), (0, ())] (by decide) (by decide)⟩⟩

/-- With a decay factor in `[0, 1)` and a positive terminal temperature,
some number of decay steps drives any temperature below the terminal one. -/
theorem exists_temp_drop {decay t_min : ℚ} (h0 : 0 ≤ decay) (h1 : decay < 1)
    (htm : 0 < t_min) (t : ℚ) : ∃ k, t * decay ^ k < t_min := by
  rcases le_or_lt t 0 with ht | ht
  · refine ⟨0, ?_⟩
    rw [pow_zero, mul_one]
    exact lt_of_le_of_lt ht htm
  · obtain ⟨k, hk⟩ := exists_pow_lt_of_lt_one (div_pos htm ht) h1
    refine ⟨k, ?_⟩
    calc t * decay ^ k < t * (t_min / t) := mul_lt_mul_of_pos_left hk ht
      _ = t_min := by field_simp

/-- Termination of the loop: by outer induction on the remaining restart
budget and inner induction on the number of decay steps left in the
current cooling pass. -/
theorem annealLoop_term_aux {rops : RngOps R} {a : Annealer S M R}
    {fops : FloatOps} {opt : AnnealingOptions} {t_max t_min decay : ℚ}
    (h0 : 0 ≤ decay) (h1 : decay < 1) (htm : 0 < t_min) :
    ∀ (m k : ℕ) (st : LoopSt S R),
      opt.restart - st.restart_cnt ≤ m →
      st.temp * decay ^ k < t_min →
      ∃ n r, annealLoop rops a fops opt t_max t_min decay n st = some r := by
  intro m
  induction m with
  | zero =>
    intro k
    induction k with
    | zero =>
      intro st hm hk
      rw [pow_zero, mul_one] at hk
      have hge : st.restart_cnt + 1 ≥ opt.restart := by omega
      refine ⟨1, ((st.best_score, st.best_ans), st.reheats), ?_⟩
      exact annealLoop_eq_of_rc_inl
        (by unfold restartCheck; rw [if_pos hk, if_pos hge])
    | succ k ihk =>
      intro st hm hk
      by_cases htemp : st.temp < t_min
      · have hge : st.restart_cnt + 1 ≥ opt.restart := by omega
        refine ⟨1, ((st.best_score, st.best_ans), st.reheats), ?_⟩
        exact annealLoop_eq_of_rc_inl
          (by unfold restartCheck; rw [if_pos htemp, if_pos hge])
      · have hrc : restartCheck opt t_max t_min st = Sum.inr st := by
          unfold restartCheck
          rw [if_neg htemp]
        cases hcs : coolStep rops a fops decay st with
        | inl q => exact ⟨1, (q, st.reheats), annealLoop_eq_of_cs_inl hrc hcs⟩
        | inr st2 =>
          have e := coolStep_inr hcs
          have hk2 : st2.temp * decay ^ k < t_min := by
            rw [e.2.2.2]
            have hmul : st.temp * decay * decay ^ k =
                st.temp * decay ^ (k + 1) := by ring
            rw [hmul]
            exact hk
          have hm2 : opt.restart - st2.restart_cnt ≤ 0 := by
            rw [e.2.1]
            exact hm
          obtain ⟨n, r, hn⟩ := ihk st2 hm2 hk2
          exact ⟨n + 1, r, by rw [annealLoop_eq_of_cont hrc hcs]; exact hn⟩
  | succ m ihm =>
    intro k
    induction k with
    | zero =>
      intro st hm hk
      rw [pow_zero, mul_one] at hk
      by_cases hge : st.restart_cnt + 1 ≥ opt.restart
      · refine ⟨1, ((st.best_score, st.best_ans), st.reheats), ?_⟩
        exact annealLoop_eq_of_rc_inl
          (by unfold restartCheck; rw [if_pos hk, if_pos hge])
      · have hrc : restartCheck opt t_max t_min st =
            Sum.inr { st with restart_cnt := st.restart_cnt + 1,
                              temp := t_max, reheats := st.reheats + 1 } := by
          unfold restartCheck
          rw [if_pos hk, if_neg hge]
        cases hcs : coolStep rops a fops decay
            { st with restart_cnt := st.restart_cnt + 1, temp := t_max,
                      reheats := st.reheats + 1 } with
        | inl q => exact ⟨1, _, annealLoop_eq_of_cs_inl hrc hcs⟩
        | inr st2 =>
          have e := coolStep_inr hcs
          have hm2 : opt.restart - st2.restart_cnt ≤ m := by
            rw [e.2.1]
            show opt.restart - (st.restart_cnt + 1) ≤ m
            omega
          obtain ⟨k2, hk2⟩ := exists_temp_drop h0 h1 htm st2.temp
          obtain ⟨n, r, hn⟩ := ihm k2 st2 hm2 hk2
          exact ⟨n + 1, r, by rw [annealLoop_eq_of_cont hrc hcs]; exact hn⟩
    | succ k ihk =>
      intro st hm hk
      by_cases htemp : st.temp < t_min
      · by_cases hge : st.restart_cnt + 1 ≥ opt.restart
        · refine ⟨1, ((st.best_score, st.best_ans), st.reheats), ?_⟩
          exact annealLoop_eq_of_rc_inl
            (by unfold restartCheck; rw [if_pos htemp, if_pos hge])
        · have hrc : restartCheck opt t_max t_min st =
              Sum.inr { st with restart_cnt := st.restart_cnt + 1,
                                temp := t_max,
                                reheats := st.reheats + 1 } := by
            unfold restartCheck
            rw [if_pos htemp, if_neg hge]
          cases hcs : coolStep rops a fops decay
              { st with restart_cnt := st.restart_cnt + 1, temp := t_max,
                        reheats := st.reheats + 1 } with
          | inl q => exact ⟨1, _, annealLoop_eq_of_cs_inl hrc hcs⟩
          | inr st2 =>
            have e := coolStep_inr hcs
            have hm2 : opt.restart - st2.restart_cnt ≤ m := by
              rw [e.2.1]
              show opt.restart - (st.restart_cnt + 1) ≤ m
              omega
            obtain ⟨k2, hk2⟩ := exists_temp_drop h0 h1 htm st2.temp
            obtain ⟨n, r, hn⟩ := ihm k2 st2 hm2 hk2
            exact ⟨n + 1, r, by rw [annealLoop_eq_of_cont hrc hcs]; exact hn⟩
      · have hrc : restartCheck opt t_max t_min st = Sum.inr st := by
          unfold restartCheck
          rw [if_neg htemp]
        cases hcs : coolStep rops a fops decay st with
        | inl q => exact ⟨1, (q, st.reheats), annealLoop_eq_of_cs_inl hrc hcs⟩
        | inr st2 =>
          have e := coolStep_inr hcs
          have hk2 : st2.temp * decay ^ k < t_min := by
            rw [e.2.2.2]
            have hmul : st.temp * decay * decay ^ k =
                st.temp * decay ^ (k + 1) := by ring
            rw [hmul]
            exact hk
          have hm2 : opt.restart - st2.restart_cnt ≤ m + 1 := by
            rw [e.2.1]
            exact hm
          obtain ⟨n, r, hn⟩ := ihk st2 hm2 hk2
          exact ⟨n + 1, r, by rw [annealLoop_eq_of_cont hrc hcs]; exact hn⟩

/-- The loop terminates from any starting state once the decay factor lies
in `[0, 1)` and the terminal temperature is positive. -/
theorem annealLoop_terminates {rops : RngOps R} {a : Annealer S M R}
    {fops : FloatOps} {opt : AnnealingOptions} {t_max t_min decay : ℚ}
    (h0 : 0 ≤ decay) (h1 : decay < 1) (htm : 0 < t_min) (st : LoopSt S R) :
    ∃ n r, annealLoop rops a fops opt t_max t_min decay n st = some r := by
  obtain ⟨k, hk⟩ := exists_temp_drop h0 h1 htm st.temp
  exact annealLoop_term_aux h0 h1 htm opt.restart k st (Nat.sub_le _ _) hk

/-- Claim C7: every single run terminates.  Under `steps ≥ 1`,
`restart ≥ 1`, a positive terminal temperature and a computed decay factor
in `[0, 1)` (which the real decay formula yields whenever
`0 < limit_temp < start_temp`, see `C4_decay_in_unit_interval`), some
finite fuel makes `do_annealing` return a result: each cooling pass drops
below `limit_temp` after finitely many iterations, and the run ends when
the restart budget is exhausted or `is_done` fires on an accepted move. -/
theorem C7_terminates (rops : RngOps R) (fops : FloatOps)
    (a : Annealer S M R) (opt : AnnealingOptions) (seed : ℕ) (d : ℚ)
    (hs : 1 ≤ opt.steps) (hr : 1 ≤ opt.restart) (htm : 0 < opt.limit_temp)
    (hd : fops.exp (fops.ln (opt.limit_temp /
        a.start_temp (a.eval (a.init_state (rops.seed_from_u64 seed)).1)) /
        (opt.steps : ℚ)) = d)
    (hd0 : 0 ≤ d) (hd1 : d < 1) :
    ∃ fuel r, do_annealing rops fops a opt seed fuel = some r := by
  simp only [do_annealing, do_annealing_reheats]
  rw [hd]
  obtain ⟨n, rr, hn⟩ := annealLoop_terminates hd0 hd1 htm
    ⟨(a.init_state (rops.seed_from_u64 seed)).2,
     (a.init_state (rops.seed_from_u64 seed)).1,
     a.eval (a.init_state (rops.seed_from_u64 seed)).1,
     a.eval (a.init_state (rops.seed_from_u64 seed)).1,
     (a.init_state (rops.seed_from_u64 seed)).1, 0,
     a.start_temp (a.eval (a.init_state (rops.seed_from_u64 seed)).1), 0⟩
  exact ⟨n, rr.1, by rw [hn]; rfl⟩

/-- Witness for C7: the concrete run terminates with the constant float
model, whose decay factor is `1/2`. -/
theorem C7_terminates_witness :
    1 ≤ optOne.steps ∧ 1 ≤ optOne.restart ∧ (0 : ℚ) < optOne.limit_temp ∧
    ∃ fuel r, do_annealing unitRng constFloatOps constAnnealer optOne 0 fuel =
      some r :=
  ⟨by decide, by decide, by decide,
   C7_terminates unitRng constFloatOps constAnnealer optOne 0 (1 / 2)
     (by decide) (by decide) (by decide) rfl
     (div_nonneg zero_le_one zero_le_two)
     ((div_lt_one two_pos).mpr one_lt_two)⟩

end SA
